import Mathlib

/-!
Shallow embedding of the gmx_sim_bak configuration validator and file ledger
(src/gmx_sim_bak/simulation.py) together with the parts of Python's standard
library that simulation.py leans on (difflib.get_close_matches, dict update
semantics, os.path helpers).  Machine-checked statements about the claims of
the specification follow the definitions.
-/

/-- Python exceptions that the embedded code can raise. -/
inductive PyErr where
  | keyError (k : String)
  | valueError (msg : String)
  | indexError
  | attributeError
  | assertionError
deriving DecidableEq, Repr

/-- A toml / Python value as seen by simulation.py: either a non-dict scalar
(carried opaquely by its printed representation) or a dict with string keys,
in insertion order. -/
inductive Val where
  | prim (repr : String)
  | dict (entries : List (String × Val))
deriving Repr

/-- Python repr of a `Val`, used when the code interpolates an item into an
interactive message (str.format). -/
def pyRepr : Val → String
  | .prim r => r
  | .dict es => "\x7b" ++ pyReprEntries es ++ "\x7d"
where
  pyReprEntries : List (String × Val) → String
  | [] => ""
  | [(k, v)] => "'" ++ k ++ "': " ++ pyRepr v
  | (k, v) :: e :: es => "'" ++ k ++ "': " ++ pyRepr v ++ ", " ++ pyReprEntries (e :: es)

/-- Python dict lookup `d[k]` on an insertion-ordered association list. -/
def lookupVal : List (String × Val) → String → Option Val
  | [], _ => none
  | (k', v) :: rest, k => if k' = k then some v else lookupVal rest k

/-- Python dict assignment `d[k] = v`: overwrite in place when the key is
present (its position is preserved), otherwise append at the end. -/
def dictSet (d : List (String × Val)) (k : String) (v : Val) : List (String × Val) :=
  if d.any (fun e => e.1 = k) then
    d.map (fun e => if e.1 = k then (k, v) else e)
  else d ++ [(k, v)]

/-- Does the character list `pat` occur at the head of `text`? -/
def seqStarts : List Char → List Char → Bool
  | [], _ => true
  | _ :: _, [] => false
  | c :: cs, d :: ds => c == d && seqStarts cs ds

/-- Python substring test `pat in text` for strings, over character lists. -/
def hasSeq : List Char → List Char → Bool
  | pat, [] => pat.isEmpty
  | pat, d :: ds => seqStarts pat (d :: ds) || hasSeq pat ds

/-- Python string comparison `s < t` (lexicographic on code points). -/
def strLtB : List Char → List Char → Bool
  | [], [] => false
  | [], _ :: _ => true
  | _ :: _, [] => false
  | a :: as, b :: bs => if a < b then true else if b < a then false else strLtB as bs

/-! ## difflib (Python standard library)

`difflib.get_close_matches(word, possibilities)` with the default arguments
`n = 3`, `cutoff = 0.6`: every possibility whose SequenceMatcher similarity
ratio with `word` is at least 0.6 is kept, and the three largest
`(ratio, possibility)` pairs are returned in descending order (heapq.nlargest
compares the pairs themselves, so equal ratios are tie-broken by the larger
string).  The ratio is `2*M/(len(a)+len(b))` where `M` is the total size of
the matching blocks found by SequenceMatcher with `isjunk = None`; we compare
the ratios as exact rationals. -/

/-- SequenceMatcher's `b2j` lookup: the indices of `c` in `b`, ascending,
emptied for "popular" characters by the autojunk heuristic when `b` has at
least 200 elements. -/
def b2jIndices (b : List Char) (c : Char) : List Nat :=
  let n := b.length
  let idxs := (List.range n).filter (fun j => b.getD j ' ' == c)
  if n ≥ 200 ∧ idxs.length > n / 100 + 1 then [] else idxs

/-- One row of SequenceMatcher.find_longest_match's dynamic program: fold the
window-restricted `b2j` indices for `a[i]`, building the new `j ↦ run length`
table and updating the best block.  State: (j2len of previous row, new j2len,
besti, bestj, bestsize). -/
def flmRow (j2len : Nat → Nat) (i : Nat) (js : List Nat) (best : Nat × Nat × Nat) :
    (Nat → Nat) × (Nat × Nat × Nat) :=
  js.foldl
    (fun st j =>
      let nj := st.1
      let besti := st.2.1
      let bestj := st.2.2.1
      let bestsize := st.2.2.2
      let k := (if j = 0 then 0 else j2len (j - 1)) + 1
      let nj' := fun j' => if j' = j then k else nj j'
      if k > bestsize then (nj', (i + 1 - k, j + 1 - k, k))
      else (nj', (besti, bestj, bestsize)))
    ((fun _ => 0), best)

/-- Backward extension of the best block over equal elements (the junk set is
empty since `get_close_matches` passes `isjunk = None`). -/
def flmExtendBack (a b : List Char) (alo blo : Nat) :
    Nat → Nat × Nat × Nat → Nat × Nat × Nat
  | 0, st => st
  | fuel + 1, (bi, bj, k) =>
    if alo < bi ∧ blo < bj ∧ a.getD (bi - 1) ' ' == b.getD (bj - 1) ' ' then
      flmExtendBack a b alo blo fuel (bi - 1, bj - 1, k + 1)
    else (bi, bj, k)

/-- Forward extension of the best block over equal elements. -/
def flmExtendFwd (a b : List Char) (ahi bhi : Nat) :
    Nat → Nat × Nat × Nat → Nat × Nat × Nat
  | 0, st => st
  | fuel + 1, (bi, bj, k) =>
    if bi + k < ahi ∧ bj + k < bhi ∧ a.getD (bi + k) ' ' == b.getD (bj + k) ' ' then
      flmExtendFwd a b ahi bhi fuel (bi, bj, k + 1)
    else (bi, bj, k)

/-- SequenceMatcher.find_longest_match on the window `a[alo:ahi]`, `b[blo:bhi]`:
returns `(besti, bestj, bestsize)`. -/
def findLongestMatch (a b : List Char) (alo ahi blo bhi : Nat) : Nat × Nat × Nat :=
  let scan :=
    (List.range' alo (ahi - alo)).foldl
      (fun st i =>
        let js := (b2jIndices b (a.getD i ' ')).filter
          (fun j => decide (blo ≤ j) && decide (j < bhi))
        flmRow st.1 i js st.2)
      ((fun _ => 0), (alo, blo, 0))
  flmExtendFwd a b ahi bhi bhi (flmExtendBack a b alo blo scan.2.1 scan.2)

/-- Total size of SequenceMatcher's matching blocks on a window: recursively
take the longest match and recurse on both sides.  `fuel` bounds the recursion
depth; every call site passes more fuel than the window width, which the
recursion (strictly shrinking windows) never exhausts. -/
def matchedBlocksTotal (a b : List Char) : Nat → Nat → Nat → Nat → Nat → Nat
  | 0, _, _, _, _ => 0
  | fuel + 1, alo, ahi, blo, bhi =>
    let r := findLongestMatch a b alo ahi blo bhi
    if r.2.2 = 0 then 0
    else
      r.2.2 + matchedBlocksTotal a b fuel alo r.1 blo r.2.1 +
        matchedBlocksTotal a b fuel (r.1 + r.2.2) ahi (r.2.1 + r.2.2) bhi

/-- Total matched size between the full sequences `a` and `b`. -/
def matchedTotal (a b : List Char) : Nat :=
  matchedBlocksTotal a b (a.length + b.length + 1) 0 a.length 0 b.length

/-- The similarity score as an exact rational `(numerator, denominator)`:
`2*M / (len a + len b)`, and 1.0 when both are empty (Python's
`_calculate_ratio`). -/
def ratioNumDen (m la lb : Nat) : Nat × Nat :=
  if la + lb = 0 then (1, 1) else (2 * m, la + lb)

/-- Descending comparison used by heapq.nlargest on `(ratio, string)` pairs:
larger ratio first, ties broken by the lexicographically larger string. -/
def scoreGt (x y : (Nat × Nat) × String) : Bool :=
  if x.1.1 * y.1.2 > y.1.1 * x.1.2 then true
  else if x.1.1 * y.1.2 = y.1.1 * x.1.2 then strLtB y.2.toList x.2.toList
  else false

/-- Stable insertion into a descending list: `x` goes before the first element
it strictly beats, so equal elements keep their original order. -/
def insSorted (gt : α → α → Bool) (x : α) : List α → List α
  | [] => [x]
  | y :: ys => if gt x y then x :: y :: ys else y :: insSorted gt x ys

/-- Stable descending sort (heapq.nlargest without the truncation). -/
def sortDesc (gt : α → α → Bool) : List α → List α
  | [] => []
  | x :: xs => insSorted gt x (sortDesc gt xs)

/-- difflib.get_close_matches with the default `n = 3`, `cutoff = 0.6`:
keep the possibilities whose ratio against `word` is at least 0.6
(`2*M/(la+lb) ≥ 3/5`, i.e. `10*M ≥ 3*(la+lb)`), order them by descending
`(ratio, string)` and return at most three. -/
def getCloseMatches (word : String) (poss : List String) : List String :=
  let scored := poss.filterMap (fun x =>
    let m := matchedTotal x.toList word.toList
    if 10 * m ≥ 3 * (x.toList.length + word.toList.length) then
      some (ratioNumDen m x.toList.length word.toList.length, x)
    else none)
  ((sortDesc scoreGt scored).take 3).map Prod.snd

example : getCloseMatches "forcefeild" ["forcefield"] = ["forcefield"] := by decide
example : getCloseMatches "outputs" ["output"] = ["output"] := by decide
example : getCloseMatches "zzz" ["abc"] = [] := by decide

/-! ## Config.check_config and Config.get_input_replace_key
(simulation.py lines 55-102)

`ref` embeds `self.ref_config` (the reference template toml), `inp` embeds the
interactive `input` call as a deterministic response policy (message text to
response string), and a raw config is an insertion-ordered association list
exactly like a parsed toml dict. -/

/-- The message built by `Config.get_input_replace_key` (lines 60-63) and
handed to `input`, after `str.format` has filled the three placeholders. -/
def mkMessage (keyPart : String) (item : Val) (cand : String) : String :=
  "In config, key: " ++ keyPart ++ " item: " ++ pyRepr item ++
    " not found in ref config did you mean " ++ cand ++ "? y/n?"

/-- Python `s[0:1]`: the string made of the first character. -/
def strTake1 (s : String) : String := String.mk (s.toList.take 1)

/-- The no-subkey branch of `Config.get_input_replace_key` (simulation.py
lines 73-81): rank `key` against the TOP-LEVEL reference keys, index the
candidate list at 0 before any emptiness check (IndexError when it is empty),
then — line 78's `ref_key = ref_key[0]` re-indexes the candidate *string* —
truncate the candidate to its first character before showing and returning it.
Every non-"y" response falls through to line 82's ValueError. -/
def get_input_replace_key_top (ref : List (String × Val)) (inp : String → String)
    (key : String) (item : Val) : Except PyErr String :=
  match getCloseMatches key (ref.map Prod.fst) with
  | [] => .error .indexError
  | rk :: _ =>
    if rk.toList.length = 0 then
      .error (.valueError ("Key: " ++ key ++ " not found in reference toml."))
    else
      let rk1 := strTake1 rk
      if inp (mkMessage key item rk1) = "y" then .ok rk1
      else .error (.valueError "Unknown key in config toml file.")

/-- Embeds `Config.get_input_replace_key` (simulation.py lines 55-82).
Line 64's `if subkey:` tests truthiness, which is false both for None and for
the EMPTY STRING, so an empty subkey takes the no-subkey branch — its
correction is then sought among the top-level section names from the section's
own name.  With a truthy (nonempty) subkey (lines 64-72): rank
`ref_config[key]`'s keys against the subkey (KeyError when `key` is absent,
AttributeError when `ref_config[key]` is not a dict, since `.keys()` is then
missing), raise ValueError when no candidate survives the cutoff, and return
the best candidate exactly when the response is the string "y"; every non-"y"
response falls through to line 82's ValueError. -/
def get_input_replace_key (ref : List (String × Val)) (inp : String → String)
    (key : String) (item : Val) (subkey : Option String) : Except PyErr String :=
  match subkey with
  | some sk =>
    if sk = "" then get_input_replace_key_top ref inp key item
    else
      match lookupVal ref key with
      | none => .error (.keyError key)
      | some (.prim _) => .error .attributeError
      | some (.dict refSec) =>
        match getCloseMatches sk (refSec.map Prod.fst) with
        | [] => .error (.valueError ("Key: " ++ key ++ "/" ++ sk ++ " not found in reference toml."))
        | rk :: _ =>
          if inp (mkMessage (key ++ "/" ++ sk) item rk) = "y" then .ok rk
          else .error (.valueError "Unknown key in config toml file.")
  | none => get_input_replace_key_top ref inp key item

/-- The subdict loop of `Config.check_config` (lines 94-97): for each
`(sub_key, sub_item)` the membership test `sub_key not in self.ref_config[key]`
looks `key` up in the reference (KeyError when absent; for a non-dict
reference value Python's `in` is the substring test, which we model with the
value's string form); unknown subkeys go through `get_input_replace_key`
(note line 96 passes the whole subdict `item` as the displayed item), and the
resolved pair is written into the section being built. -/
def checkSubEntries (ref : List (String × Val)) (inp : String → String)
    (key : String) (orig : Val) :
    List (String × Val) → List (String × Val) → Except PyErr (List (String × Val))
  | [], acc => .ok acc
  | (sk, sv) :: rest, acc =>
    match lookupVal ref key with
    | none => .error (.keyError key)
    | some (.prim s) =>
      if hasSeq sk.toList s.toList then
        checkSubEntries ref inp key orig rest (dictSet acc sk sv)
      else
        match get_input_replace_key ref inp key orig (some sk) with
        | .error e => .error e
        | .ok sk' => checkSubEntries ref inp key orig rest (dictSet acc sk' sv)
    | some (.dict refSec) =>
      if (refSec.map Prod.fst).contains sk then
        checkSubEntries ref inp key orig rest (dictSet acc sk sv)
      else
        match get_input_replace_key ref inp key orig (some sk) with
        | .error e => .error e
        | .ok sk' => checkSubEntries ref inp key orig rest (dictSet acc sk' sv)

/-- The top-level loop of `Config.check_config` (lines 90-101): dict items get
their subkeys checked (the *section name itself is never fuzzy-matched*:
an absent section name surfaces as the KeyError raised at line 95), non-dict
items have their key checked against the top-level reference keys and renamed
through `get_input_replace_key` when absent. -/
def checkEntries (ref : List (String × Val)) (inp : String → String) :
    List (String × Val) → List (String × Val) → Except PyErr (List (String × Val))
  | [], acc => .ok acc
  | (key, item) :: rest, acc =>
    match item with
    | .dict sub =>
      match checkSubEntries ref inp key (.dict sub) sub [] with
      | .error e => .error e
      | .ok newSub => checkEntries ref inp rest (dictSet acc key (.dict newSub))
    | .prim p =>
      if (ref.map Prod.fst).contains key then
        checkEntries ref inp rest (dictSet acc key (.prim p))
      else
        match get_input_replace_key ref inp key (.prim p) none with
        | .error e => .error e
        | .ok key' => checkEntries ref inp rest (dictSet acc key' (.prim p))

/-- Embeds `Config.check_config` (simulation.py lines 84-102). -/
def check_config (ref : List (String × Val)) (inp : String → String)
    (config : List (String × Val)) : Except PyErr (List (String × Val)) :=
  checkEntries ref inp config []

example :
    check_config [("gmxpath", .dict [])] (fun _ => "y")
      [("gmxpat", .prim "/a")] = .ok [("g", .prim "/a")] := by rfl

/-! ## SimFiles (simulation.py lines 105-167)

The filesystem is a map from absolute path to file content; `os.path.exists`,
`os.replace` and file creation act on it.  All state threading is explicit. -/

/-- The filesystem: path to content, `none` when the path does not exist. -/
def Fs : Type := String → Option String

/-- os.path.exists. -/
def osPathExists (fs : Fs) (p : String) : Bool := (fs p).isSome

/-- os.replace src dst: move the file at `src` to `dst` (overwriting `dst`).
The embedded code only calls it when `src` exists. -/
def osReplace (fs : Fs) (src dst : String) : Fs :=
  fun q => if q = dst then fs src else if q = src then none else fs q

/-- Create (or overwrite) the file at `p` with content `c`. -/
def fsWrite (fs : Fs) (p c : String) : Fs :=
  fun q => if q = p then some c else fs q

/-- os.path.join for a directory and a relative file name. -/
def pjoin (a b : String) : String := a ++ "/" ++ b

/-- Python `name.split(".")`: split at every dot, keeping empty segments. -/
def splitDotAux : List Char → List Char → List (List Char)
  | [], cur => [cur.reverse]
  | c :: rest, cur =>
    if c = '.' then cur.reverse :: splitDotAux rest []
    else splitDotAux rest (c :: cur)

/-- `file_name.split(".")[-1]` (simulation.py line 128): the text after the
last dot — note it does NOT include the dot. -/
def fileEnding (name : String) : String :=
  String.mk ((splitDotAux name.toList []).getLastD [])

/-- The state of a `SimFiles` ledger: the run directory, the path of
files.toml, the minor-zone subdirectory, the major extension list, and the
in-memory category map `self.files` (a defaultdict of lists, in insertion
order). -/
structure SimFiles where
  path : String
  files_name : String
  minor_path : String
  major_files : List String
  files : List (String × List String)
deriving DecidableEq, Repr

/-- `SimFiles.__init__` (lines 109-119) for a freshly loaded ledger: files.toml
lives in the run directory, the minor zone is its `simfiles` subdirectory, and
the major set is the fixed list `[".xtc"]`. -/
def mkSimFiles (path : String) (files : List (String × List String)) : SimFiles :=
  ⟨path, pjoin path "files.toml", pjoin path "simfiles", [".xtc"], files⟩

/-- Where `add_files` resolves a file name (lines 127-133): the run directory
when the ending is in `major_files`, the minor subdirectory otherwise. -/
def resolvePath (sf : SimFiles) (n : String) : String :=
  if sf.major_files.contains (fileEnding n) then pjoin sf.path n
  else pjoin sf.minor_path n

/-- All resolved paths of a registration, positionally aligned with the
names. -/
def resolvePaths (sf : SimFiles) (names : List String) : List String :=
  names.map (resolvePath sf)

/-- `self.files[file_ending].append(file_path)` on a defaultdict(list): append
to the existing list, or install the key at the end with a one-element list. -/
def dAppend (files : List (String × List String)) (k p : String) :
    List (String × List String) :=
  if files.any (fun e => e.1 = k) then
    files.map (fun e => if e.1 = k then (e.1, e.2 ++ [p]) else e)
  else files ++ [(k, [p])]

/-- The second loop of `add_files` (lines 138-144): back up every path that
already exists (the `assert not os.path.exists(file_path + "bak")` raises
AssertionError when the backup name is taken), and append every path to
`self.files[file_ending]` — where `file_ending` is the variable leaked from
the FIRST loop, i.e. the ending of the LAST registered name, not the path's
own ending. -/
def addFilesLoop (lastEnding : String) :
    List String → List (String × List String) → Fs →
      Except PyErr (List (String × List String) × Fs)
  | [], ledger, fs => .ok (ledger, fs)
  | p :: rest, ledger, fs =>
    if osPathExists fs p then
      if osPathExists fs (p ++ "bak") then .error .assertionError
      else addFilesLoop lastEnding rest (dAppend ledger lastEnding p)
        (osReplace fs p (p ++ "bak"))
    else addFilesLoop lastEnding rest (dAppend ledger lastEnding p) fs

/-- Embeds `SimFiles.add_files` (simulation.py lines 121-145): resolve every
name to its zone path; when every resolved path exists return `None`
(`np.all` of an empty list is true, so an empty registration returns `None`);
otherwise run the backup-and-append loop and return the resolved paths. -/
def add_files (sf : SimFiles) (fs : Fs) (names : List String) :
    Except PyErr (Option (List String) × SimFiles × Fs) :=
  let file_paths := resolvePaths sf names
  if file_paths.all (osPathExists fs) then .ok (none, sf, fs)
  else
    match addFilesLoop (fileEnding (names.getLastD "")) file_paths sf.files fs with
    | .error e => .error e
    | .ok (ledger, fs') =>
      .ok (some file_paths,
        SimFiles.mk sf.path sf.files_name sf.minor_path sf.major_files ledger, fs')

/-- Embeds `SimFiles.save` (simulation.py lines 147-157).  The loop of lines
149-154 only prints warnings; line 156 opens files.toml for writing, which
truncates it, and line 157 calls `toml.save` — a function that does not exist
in the toml package (its API is `toml.dump`) — so the call always raises
AttributeError after the truncation.  The truncated filesystem is returned
alongside the raised error. -/
def SimFiles.save (sf : SimFiles) (fs : Fs) : Fs × Except PyErr Unit :=
  (fsWrite fs sf.files_name "", .error .attributeError)

/-- Create every path in the list (the pipeline step producing its outputs). -/
def createAll (fs : Fs) (ps : List String) : Fs :=
  ps.foldl (fun f p => fsWrite f p "") fs

example : fileEnding "a.xtc" = "xtc" := by rfl
example : resolvePath (mkSimFiles "/run" []) "a.xtc" = "/run/simfiles/a.xtc" := by rfl

/-! ## Claim theorems -/

/-- A freshly written path exists. -/
theorem fsWrite_exists_self (fs : Fs) (q c : String) :
    osPathExists (fsWrite fs q c) q = true := by
  simp [osPathExists, fsWrite]

/-- Writing never removes an existing path. -/
theorem fsWrite_exists_mono (fs : Fs) (q c x : String)
    (h : osPathExists fs x = true) : osPathExists (fsWrite fs q c) x = true := by
  by_cases hx : x = q
  · simp [osPathExists, fsWrite, hx]
  · simpa [osPathExists, fsWrite, hx] using h

/-- Creating a batch of files never removes an existing path. -/
theorem createAll_exists_mono (ps : List String) (fs : Fs) (x : String)
    (h : osPathExists fs x = true) : osPathExists (createAll fs ps) x = true := by
  induction ps generalizing fs with
  | nil => exact h
  | cons q rest ih => exact ih (fsWrite fs q "") (fsWrite_exists_mono fs q "" x h)

/-- Every path of the created batch exists afterwards. -/
theorem createAll_exists_of_mem (ps : List String) (fs : Fs) (p : String)
    (h : p ∈ ps) : osPathExists (createAll fs ps) p = true := by
  induction ps generalizing fs with
  | nil => cases h
  | cons q rest ih =>
    rcases List.mem_cons.mp h with rfl | hmem
    · exact createAll_exists_mono rest (fsWrite fs p "") p (fsWrite_exists_self fs p "")
    · exact ih (fsWrite fs q "") hmem

/-- The backup-and-append loop either fails with the backup-collision
AssertionError or succeeds. -/
theorem addFilesLoop_shape (paths : List String) (le : String)
    (ledger : List (String × List String)) (fs : Fs) :
    addFilesLoop le paths ledger fs = .error .assertionError ∨
      ∃ L fs', addFilesLoop le paths ledger fs = .ok (L, fs') := by
  induction paths generalizing ledger fs with
  | nil => exact Or.inr ⟨ledger, fs, rfl⟩
  | cons p rest ih =>
    by_cases h1 : osPathExists fs p = true
    · by_cases h2 : osPathExists fs (p ++ "bak") = true
      · left; simp [addFilesLoop, h1, h2]
      · have := ih (dAppend ledger le p) (osReplace fs p (p ++ "bak"))
        simpa [addFilesLoop, h1, h2] using this
    · have := ih (dAppend ledger le p) fs
      simpa [addFilesLoop, h1] using this

/-- C1 (amended): when every resolved path of a registration already exists,
`add_files` returns `none` and leaves the ledger and the filesystem untouched;
otherwise it either fails with the backup-collision AssertionError (the case
the original claim omits) or returns the ordered resolved paths while touching
only the `files` component of the ledger; and after a successful registering
call, creating the returned paths and registering the same names again returns
`none` with everything unchanged (the idempotence round trip). -/
theorem c1_register_outputs_contract (sf : SimFiles) (fs : Fs) (names : List String) :
    ((resolvePaths sf names).all (osPathExists fs) = true →
      add_files sf fs names = .ok (none, sf, fs)) ∧
    ((resolvePaths sf names).all (osPathExists fs) = false →
      add_files sf fs names = .error .assertionError ∨
        ∃ L fs', add_files sf fs names =
          .ok (some (resolvePaths sf names),
            SimFiles.mk sf.path sf.files_name sf.minor_path sf.major_files L, fs')) ∧
    (∀ res sf' fs', add_files sf fs names = .ok (some res, sf', fs') →
      add_files sf' (createAll fs' res) names =
        .ok (none, sf', createAll fs' res)) := by
  refine ⟨?_, ?_, ?_⟩
  · intro h
    simp [add_files, h]
  · intro h
    rcases addFilesLoop_shape (resolvePaths sf names)
        (fileEnding (names.getLast?.getD "")) sf.files fs with herr | ⟨L, fs', hok⟩
    · left; simp [add_files, h, herr]
    · right; exact ⟨L, fs', by simp [add_files, h, hok]⟩
  · intro res sf' fs' hok
    by_cases hall : (resolvePaths sf names).all (osPathExists fs) = true
    · rw [show add_files sf fs names = .ok (none, sf, fs) by simp [add_files, hall]] at hok
      simp at hok
    · rw [Bool.not_eq_true] at hall
      rcases addFilesLoop_shape (resolvePaths sf names)
          (fileEnding (names.getLast?.getD "")) sf.files fs with herr | ⟨L, fs2, hl⟩
      · rw [show add_files sf fs names = .error .assertionError by
          simp [add_files, hall, herr]] at hok
        cases hok
      · rw [show add_files sf fs names =
            .ok (some (resolvePaths sf names),
              SimFiles.mk sf.path sf.files_name sf.minor_path sf.major_files L, fs2) by
          simp [add_files, hall, hl]] at hok
        obtain ⟨h1, h2, h3⟩ : resolvePaths sf names = res ∧
            SimFiles.mk sf.path sf.files_name sf.minor_path sf.major_files L = sf' ∧
            fs2 = fs' := by simpa using hok
        subst h1; subst h2; subst h3
        have hcond : (resolvePaths
            (SimFiles.mk sf.path sf.files_name sf.minor_path sf.major_files L) names).all
              (osPathExists (createAll fs2 (resolvePaths sf names))) = true :=
          List.all_eq_true.mpr fun p hp =>
            createAll_exists_of_mem (resolvePaths sf names) fs2 p hp
        simp [add_files, hcond]

/-- C1 counterexample to the claim as stated: with `a.gro` present and its
backup name `a.grobak` already occupied, a registration of
`["a.gro", "b.top"]` is in the "otherwise" case (not all paths exist) yet does
NOT return the path list — it raises the backup-collision AssertionError. -/
theorem c1_register_outputs_claim_counterexample :
    add_files (mkSimFiles "/r" [])
        (fun p => if p = "/r/simfiles/a.gro" then some "c"
          else if p = "/r/simfiles/a.grobak" then some "d" else none)
        ["a.gro", "b.top"] = .error .assertionError ∧
      (resolvePaths (mkSimFiles "/r" []) ["a.gro", "b.top"]).all
        (osPathExists (fun p => if p = "/r/simfiles/a.gro" then some "c"
          else if p = "/r/simfiles/a.grobak" then some "d" else none)) = false :=
  ⟨rfl, rfl⟩

/-- C1 witness: the amended contract applied at concrete inputs — a
registration whose single file exists returns `none` unchanged, and a fresh
registration followed by creating the returned path and re-registering
returns `none` the second time. -/
theorem c1_register_outputs_contract_witness :
    add_files (mkSimFiles "/w" [])
        (fun p => if p = "/w/simfiles/a.gro" then some "" else none) ["a.gro"] =
      .ok (none, mkSimFiles "/w" [],
        fun p => if p = "/w/simfiles/a.gro" then some "" else none) ∧
    add_files (SimFiles.mk "/v" "/v/files.toml" "/v/simfiles" [".xtc"]
          [("gro", ["/v/simfiles/a.gro"])])
        (createAll (fun _ => none) ["/v/simfiles/a.gro"]) ["a.gro"] =
      .ok (none,
        SimFiles.mk "/v" "/v/files.toml" "/v/simfiles" [".xtc"]
          [("gro", ["/v/simfiles/a.gro"])],
        createAll (fun _ => none) ["/v/simfiles/a.gro"]) :=
  ⟨(c1_register_outputs_contract (mkSimFiles "/w" [])
      (fun p => if p = "/w/simfiles/a.gro" then some "" else none) ["a.gro"]).1 rfl,
    (c1_register_outputs_contract (mkSimFiles "/v" []) (fun _ => none) ["a.gro"]).2.2
      ["/v/simfiles/a.gro"]
      (SimFiles.mk "/v" "/v/files.toml" "/v/simfiles" [".xtc"]
        [("gro", ["/v/simfiles/a.gro"])])
      (fun _ => none) rfl⟩

/-- Appending the same suffix to two different strings keeps them different. -/
theorem strAppend_right_cancel {a b s : String} (h : a ++ s = b ++ s) : a = b := by
  have hd : (a ++ s).data = (b ++ s).data := by rw [h]
  simp [String.data_append] at hd
  exact String.ext hd

/-- Paths that are not registered in the remaining loop survive it: the loop
renames only members of its path list, and only onto fresh backup names. -/
theorem addFilesLoop_preserves (paths : List String) (le : String)
    (ledger : List (String × List String)) (fs : Fs) (x : String)
    (L' : List (String × List String)) (fs' : Fs)
    (hx : x ∉ paths) (hex : osPathExists fs x = true)
    (hok : addFilesLoop le paths ledger fs = .ok (L', fs')) :
    osPathExists fs' x = true := by
  induction paths generalizing ledger fs with
  | nil =>
    obtain ⟨-, rfl⟩ : ledger = L' ∧ fs = fs' := by simpa [addFilesLoop] using hok
    exact hex
  | cons q rest ih =>
    have hxq : x ≠ q := fun h => hx (h ▸ List.mem_cons_self q rest)
    have hxrest : x ∉ rest := fun h => hx (List.mem_cons_of_mem q h)
    by_cases h1 : osPathExists fs q = true
    · by_cases h2 : osPathExists fs (q ++ "bak") = true
      · rw [show addFilesLoop le (q :: rest) ledger fs = .error .assertionError by
          simp [addFilesLoop, h1, h2]] at hok
        cases hok
      · rw [show addFilesLoop le (q :: rest) ledger fs =
            addFilesLoop le rest (dAppend ledger le q) (osReplace fs q (q ++ "bak")) by
          simp [addFilesLoop, h1, h2]] at hok
        refine ih _ _ hxrest ?_ hok
        by_cases hxb : x = q ++ "bak"
        · simpa [osPathExists, osReplace, hxb] using h1
        · simpa [osPathExists, osReplace, hxb, hxq] using hex
    · rw [show addFilesLoop le (q :: rest) ledger fs =
          addFilesLoop le rest (dAppend ledger le q) fs by simp [addFilesLoop, h1]] at hok
      exact ih _ _ hxrest hex hok

/-- When a registered path exists and its backup name is occupied (and that
backup name is not itself registered), the loop fails with the
backup-collision AssertionError: it never overwrites the occupied backup. -/
theorem addFilesLoop_collision (paths : List String) (le : String)
    (ledger : List (String × List String)) (fs : Fs) (p : String)
    (hp : p ∈ paths) (hex : osPathExists fs p = true)
    (hbak : osPathExists fs (p ++ "bak") = true)
    (hnb : (p ++ "bak") ∉ paths) :
    addFilesLoop le paths ledger fs = .error .assertionError := by
  induction paths generalizing ledger fs with
  | nil => cases hp
  | cons q rest ih =>
    have hnbq : (p ++ "bak") ≠ q := fun h => hnb (h ▸ List.mem_cons_self q rest)
    have hnbrest : (p ++ "bak") ∉ rest := fun h => hnb (List.mem_cons_of_mem q h)
    by_cases hpq : p = q
    · subst hpq
      simp [addFilesLoop, hex, hbak]
    · have hprest : p ∈ rest := (List.mem_cons.mp hp).resolve_left hpq
      by_cases h1 : osPathExists fs q = true
      · by_cases h2 : osPathExists fs (q ++ "bak") = true
        · simp [addFilesLoop, h1, h2]
        · rw [show addFilesLoop le (q :: rest) ledger fs =
              addFilesLoop le rest (dAppend ledger le q) (osReplace fs q (q ++ "bak")) by
            simp [addFilesLoop, h1, h2]]
          have hex' : osPathExists (osReplace fs q (q ++ "bak")) p = true := by
            by_cases hpb : p = q ++ "bak"
            · simpa [osPathExists, osReplace, hpb] using h1
            · simpa [osPathExists, osReplace, hpb, hpq] using hex
          have hbb : (p ++ "bak") ≠ (q ++ "bak") := fun h => hpq (strAppend_right_cancel h)
          have hbak' : osPathExists (osReplace fs q (q ++ "bak")) (p ++ "bak") = true := by
            simpa [osPathExists, osReplace, hbb, hnbq] using hbak
          exact ih _ _ hprest hex' hbak' hnbrest
      · rw [show addFilesLoop le (q :: rest) ledger fs =
            addFilesLoop le rest (dAppend ledger le q) fs by simp [addFilesLoop, h1]]
        exact ih _ _ hprest hex hbak hnbrest

/-- On success, every registered path that existed at entry (and whose backup
name is not itself registered) has been renamed: its backup name exists in the
final filesystem. -/
theorem addFilesLoop_backs_up (paths : List String) (le : String)
    (ledger : List (String × List String)) (fs : Fs) (p : String)
    (L' : List (String × List String)) (fs' : Fs)
    (hp : p ∈ paths) (hex : osPathExists fs p = true)
    (hnb : (p ++ "bak") ∉ paths)
    (hok : addFilesLoop le paths ledger fs = .ok (L', fs')) :
    osPathExists fs' (p ++ "bak") = true := by
  induction paths generalizing ledger fs with
  | nil => cases hp
  | cons q rest ih =>
    have hnbq : (p ++ "bak") ≠ q := fun h => hnb (h ▸ List.mem_cons_self q rest)
    have hnbrest : (p ++ "bak") ∉ rest := fun h => hnb (List.mem_cons_of_mem q h)
    by_cases hpq : p = q
    · subst hpq
      by_cases h2 : osPathExists fs (p ++ "bak") = true
      · rw [show addFilesLoop le (p :: rest) ledger fs = .error .assertionError by
          simp [addFilesLoop, hex, h2]] at hok
        cases hok
      · rw [show addFilesLoop le (p :: rest) ledger fs =
            addFilesLoop le rest (dAppend ledger le p) (osReplace fs p (p ++ "bak")) by
          simp [addFilesLoop, hex, h2]] at hok
        refine addFilesLoop_preserves rest le _ _ _ _ _ hnbrest ?_ hok
        simpa [osPathExists, osReplace] using hex
    · have hprest : p ∈ rest := (List.mem_cons.mp hp).resolve_left hpq
      by_cases h1 : osPathExists fs q = true
      · by_cases h2 : osPathExists fs (q ++ "bak") = true
        · rw [show addFilesLoop le (q :: rest) ledger fs = .error .assertionError by
            simp [addFilesLoop, h1, h2]] at hok
          cases hok
        · rw [show addFilesLoop le (q :: rest) ledger fs =
              addFilesLoop le rest (dAppend ledger le q) (osReplace fs q (q ++ "bak")) by
            simp [addFilesLoop, h1, h2]] at hok
          have hex' : osPathExists (osReplace fs q (q ++ "bak")) p = true := by
            by_cases hpb : p = q ++ "bak"
            · simpa [osPathExists, osReplace, hpb] using h1
            · simpa [osPathExists, osReplace, hpb, hpq] using hex
          exact ih _ _ hprest hex' hnbrest hok
      · rw [show addFilesLoop le (q :: rest) ledger fs =
            addFilesLoop le rest (dAppend ledger le q) fs by simp [addFilesLoop, h1]] at hok
        exact ih _ _ hprest hex hnbrest hok

/-- On success no file content is lost: every content present at entry is
still present somewhere (renames only move onto names that were free). -/
theorem addFilesLoop_no_content_lost (paths : List String) (le : String)
    (ledger : List (String × List String)) (fs : Fs)
    (L' : List (String × List String)) (fs' : Fs)
    (hok : addFilesLoop le paths ledger fs = .ok (L', fs'))
    (q : String) (c : String) (hq : fs q = some c) :
    ∃ q', fs' q' = some c := by
  induction paths generalizing ledger fs q with
  | nil =>
    obtain ⟨-, rfl⟩ : ledger = L' ∧ fs = fs' := by simpa [addFilesLoop] using hok
    exact ⟨q, hq⟩
  | cons r rest ih =>
    by_cases h1 : osPathExists fs r = true
    · by_cases h2 : osPathExists fs (r ++ "bak") = true
      · rw [show addFilesLoop le (r :: rest) ledger fs = .error .assertionError by
          simp [addFilesLoop, h1, h2]] at hok
        cases hok
      · rw [show addFilesLoop le (r :: rest) ledger fs =
            addFilesLoop le rest (dAppend ledger le r) (osReplace fs r (r ++ "bak")) by
          simp [addFilesLoop, h1, h2]] at hok
        by_cases hqr : q = r
        · refine ih _ _ hok (r ++ "bak") ?_
          simpa [osReplace, hqr] using hq
        · by_cases hqb : q = r ++ "bak"
          · exfalso
            rw [hqb] at hq
            simp [osPathExists, hq] at h2
          · refine ih _ _ hok q ?_
            simpa [osReplace, hqb, hqr] using hq
    · rw [show addFilesLoop le (r :: rest) ledger fs =
          addFilesLoop le rest (dAppend ledger le r) fs by simp [addFilesLoop, h1]] at hok
      exact ih _ _ hok q hq

/-- Elements of a stable insertion come from the inserted element or the
list. -/
theorem mem_insSorted {gt : α → α → Bool} {x y : α} :
    ∀ {l : List α}, y ∈ insSorted gt x l → y = x ∨ y ∈ l
  | [], h => Or.inl (by simpa [insSorted] using h)
  | z :: zs, h => by
    by_cases hgt : gt x z = true
    · simpa [insSorted, hgt] using h
    · rw [insSorted, if_neg hgt] at h
      rcases List.mem_cons.mp h with rfl | h'
      · exact Or.inr (List.mem_cons_self y zs)
      · rcases mem_insSorted h' with rfl | h''
        · exact Or.inl rfl
        · exact Or.inr (List.mem_cons_of_mem z h'')

/-- Sorting returns only elements of the input list. -/
theorem mem_sortDesc {gt : α → α → Bool} {y : α} :
    ∀ {l : List α}, y ∈ sortDesc gt l → y ∈ l
  | [], h => by simp [sortDesc] at h
  | z :: zs, h => by
    rw [sortDesc] at h
    rcases mem_insSorted h with rfl | h'
    · exact List.mem_cons_self y zs
    · exact List.mem_cons_of_mem z (mem_sortDesc h')

/-- Every returned close match is one of the possibilities. -/
theorem getCloseMatches_mem {w r : String} {poss : List String}
    (h : r ∈ getCloseMatches w poss) : r ∈ poss := by
  rw [getCloseMatches] at h
  obtain ⟨pr, hpr, rfl⟩ := List.mem_map.mp h
  have hsorted := mem_sortDesc (List.mem_of_mem_take hpr)
  obtain ⟨x, hx, hfx⟩ := List.mem_filterMap.mp hsorted
  by_cases hc :
      10 * matchedTotal x.toList w.toList ≥ 3 * (x.toList.length + w.toList.length)
  · rw [if_pos hc] at hfx
    obtain rfl := Option.some.inj hfx
    exact hx
  · rw [if_neg hc] at hfx
    cases hfx

/-- Membership after a Python dict assignment: either the assigned pair or an
original entry. -/
theorem dictSet_mem {d : List (String × Val)} {k : String} {v : Val}
    {e : String × Val} (h : e ∈ dictSet d k v) : e = (k, v) ∨ e ∈ d := by
  rw [dictSet] at h
  by_cases hc : d.any (fun e => e.1 = k) = true
  · rw [if_pos hc] at h
    obtain ⟨p, hp, he⟩ := List.mem_map.mp h
    by_cases hpk : p.1 = k
    · left; rw [← he]; simp [hpk]
    · right; rw [← he]; simp only [if_neg hpk]; exact hp
  · rw [if_neg hc] at h
    rcases List.mem_append.mp h with h' | h'
    · exact Or.inr h'
    · exact Or.inl (by simpa using h')

/-- Python substring occurrence of the empty pattern is always true
(`"" in s` holds for every string s). -/
theorem hasSeq_nil_left (t : List Char) : hasSeq [] t = true := by
  cases t <;> simp [hasSeq, seqStarts]

/-- C2: the subset invariant is FALSE of the program.  Validating the raw
config `{"ab": {"": "5"}}` against the schema `{"ab": {"x": ...}}` with an
always-"y" policy SUCCEEDS and returns `{"ab": {"a": "5"}}`: the empty subkey
"" is not a key of the reference section, and `if subkey:` (line 64) is falsy
for "", so `get_input_replace_key` takes the top-level branch, fuzzy-matches
the SECTION name "ab" against the section names and (line 78) truncates the
accepted candidate to its first character "a", which is installed as the
corrected subkey — yet the pair ("ab", "a") is not in the schema, whose
section "ab" has the single key "x". -/
theorem c2_subset_invariant_violation :
    check_config [("ab", Val.dict [("x", Val.prim "1")])] (fun _ => "y")
      [("ab", Val.dict [("", Val.prim "5")])] =
      .ok [("ab", Val.dict [("a", Val.prim "5")])] ∧
    lookupVal [("ab", Val.dict [("x", Val.prim "1")])] "ab" =
      some (Val.dict [("x", Val.prim "1")]) ∧
    "a" ∉ ([("x", Val.prim "1")]).map Prod.fst := ⟨rfl, rfl, by decide⟩

/-- Every entry of a checked subdict carries a value taken verbatim from the
raw subdict (under some, possibly different, key) or was already in the
accumulator. -/
theorem checkSubEntries_values (ref : List (String × Val)) (inp : String → String)
    (key : String) (orig : Val) :
    ∀ (sub acc res : List (String × Val)),
      checkSubEntries ref inp key orig sub acc = .ok res →
      ∀ e ∈ res, (∃ k, (k, e.2) ∈ sub) ∨ e ∈ acc := by
  intro sub
  induction sub with
  | nil =>
    intro acc res hok e he
    simp only [checkSubEntries] at hok
    obtain rfl := Except.ok.inj hok
    exact Or.inr he
  | cons sksv rest ih =>
    intro acc res hok e he
    obtain ⟨sk, sv⟩ := sksv
    have hstep : ∀ X : String,
        checkSubEntries ref inp key orig rest (dictSet acc X sv) = .ok res →
        (∃ k, (k, e.2) ∈ (sk, sv) :: rest) ∨ e ∈ acc := by
      intro X hrec
      rcases ih _ _ hrec e he with ⟨k, hk⟩ | hmem
      · exact Or.inl ⟨k, List.mem_cons_of_mem _ hk⟩
      · rcases dictSet_mem hmem with rfl | h'
        · exact Or.inl ⟨sk, by simp⟩
        · exact Or.inr h'
    cases hlk : lookupVal ref key with
    | none =>
      simp only [checkSubEntries, hlk] at hok
      exact Except.noConfusion hok
    | some val =>
      cases val with
      | prim sref =>
        simp only [checkSubEntries, hlk] at hok
        by_cases hin : hasSeq sk.toList sref.toList = true
        · rw [if_pos hin] at hok
          exact hstep sk hok
        · rw [if_neg hin] at hok
          cases hg : get_input_replace_key ref inp key orig (some sk) with
          | error e2 => rw [hg] at hok; exact Except.noConfusion hok
          | ok sk' => rw [hg] at hok; exact hstep sk' hok
      | dict refSec =>
        simp only [checkSubEntries, hlk] at hok
        by_cases hin : (refSec.map Prod.fst).contains sk = true
        · rw [if_pos hin] at hok
          exact hstep sk hok
        · rw [if_neg hin] at hok
          cases hg : get_input_replace_key ref inp key orig (some sk) with
          | error e2 => rw [hg] at hok; exact Except.noConfusion hok
          | ok sk' => rw [hg] at hok; exact hstep sk' hok

/-- The entry `e` of a validated config takes its value verbatim from the raw
config `cfg`: for a dict entry the section of the same name is in `cfg` and
every value below it appears among that raw section's values; for a non-dict
entry the value appears verbatim at some top-level key of `cfg`. -/
def valueSourced (cfg : List (String × Val)) (e : String × Val) : Prop :=
  match e.2 with
  | .dict es' => ∃ es, (e.1, Val.dict es) ∈ cfg ∧ ∀ k' v, (k', v) ∈ es' → ∃ k, (k, v) ∈ es
  | .prim p => ∃ s, (s, Val.prim p) ∈ cfg

/-- A value sourced from a list is sourced from any extension of it. -/
theorem valueSourced_mono {cfg : List (String × Val)} {x e : String × Val}
    (h : valueSourced cfg e) : valueSourced (x :: cfg) e := by
  obtain ⟨n, v⟩ := e
  cases v with
  | dict es' =>
    obtain ⟨es, hmem, hv⟩ := h
    exact ⟨es, List.mem_cons_of_mem x hmem, hv⟩
  | prim p =>
    obtain ⟨s, hmem⟩ := h
    exact ⟨s, List.mem_cons_of_mem x hmem⟩

/-- Every entry of a checked config is in the accumulator or carries values
verbatim from the raw config. -/
theorem checkEntries_values (ref : List (String × Val)) (inp : String → String) :
    ∀ (cfg acc out : List (String × Val)),
      checkEntries ref inp cfg acc = .ok out →
      ∀ e ∈ out, e ∈ acc ∨ valueSourced cfg e := by
  intro cfg
  induction cfg with
  | nil =>
    intro acc out hok e he
    simp only [checkEntries] at hok
    obtain rfl := Except.ok.inj hok
    exact Or.inl he
  | cons keyitem rest ih =>
    intro acc out hok e he
    obtain ⟨key, item⟩ := keyitem
    cases item with
    | dict sub =>
      cases hcs : checkSubEntries ref inp key (.dict sub) sub [] with
      | error e2 =>
        simp only [checkEntries, hcs] at hok
        exact Except.noConfusion hok
      | ok newSub =>
        simp only [checkEntries, hcs] at hok
        rcases ih _ _ hok e he with hmem | hsrc
        · rcases dictSet_mem hmem with rfl | h'
          · refine Or.inr ⟨sub, List.mem_cons_self _ _, ?_⟩
            intro k' v hkv
            rcases checkSubEntries_values ref inp key (.dict sub) sub [] newSub hcs
                (k', v) hkv with ⟨k, hk⟩ | hnil
            · exact ⟨k, hk⟩
            · exact (List.not_mem_nil _ hnil).elim
          · exact Or.inl h'
        · exact Or.inr (valueSourced_mono hsrc)
    | prim p =>
      by_cases hc : (ref.map Prod.fst).contains key = true
      · simp only [checkEntries, if_pos hc] at hok
        rcases ih _ _ hok e he with hmem | hsrc
        · rcases dictSet_mem hmem with rfl | h'
          · exact Or.inr ⟨key, List.mem_cons_self _ _⟩
          · exact Or.inl h'
        · exact Or.inr (valueSourced_mono hsrc)
      · cases hg : get_input_replace_key ref inp key (.prim p) none with
        | error e2 =>
          simp only [checkEntries, if_neg hc, hg] at hok
          exact Except.noConfusion hok
        | ok key' =>
          simp only [checkEntries, if_neg hc, hg] at hok
          rcases ih _ _ hok e he with hmem | hsrc
          · rcases dictSet_mem hmem with rfl | h'
            · exact Or.inr ⟨key, List.mem_cons_self _ _⟩
            · exact Or.inl h'
          · exact Or.inr (valueSourced_mono hsrc)

/-- C8: every entry of a successfully validated config carries values that are
verbatim values of the raw config — a dict section keeps its own name and each
of its values appears among the raw section's values (only key names are
corrected), and a non-dict entry's value appears verbatim in the raw config. -/
theorem c8_value_preservation (ref : List (String × Val)) (inp : String → String)
    (cfg out : List (String × Val)) (hok : check_config ref inp cfg = .ok out) :
    ∀ e ∈ out, valueSourced cfg e :=
  fun e he =>
    (checkEntries_values ref inp cfg [] out hok e he).resolve_left (List.not_mem_nil e)

/-- C8 witness: validating `{"pdb2gmx": {"watre": "spc"}}` against a schema
with key `water` (always-yes policy) renames the key but the value "spc" is
sourced verbatim from the raw config. -/
theorem c8_value_preservation_witness :
    valueSourced [("pdb2gmx", Val.dict [("watre", Val.prim "spc")])]
      ("pdb2gmx", Val.dict [("water", Val.prim "spc")]) :=
  c8_value_preservation [("pdb2gmx", Val.dict [("water", Val.prim "tip3p")])]
    (fun _ => "y")
    [("pdb2gmx", Val.dict [("watre", Val.prim "spc")])]
    [("pdb2gmx", Val.dict [("water", Val.prim "spc")])]
    rfl ("pdb2gmx", Val.dict [("water", Val.prim "spc")]) (List.mem_singleton.mpr rfl)

/-- Did the embedded computation raise? -/
def isErr {α : Type} : Except PyErr α → Bool
  | .error _ => true
  | .ok _ => false

/-- Does processing the subkey `p` of section `key` raise?  It does exactly
when the section name is missing from the reference (KeyError), the reference
value is a non-dict that fails the substring test (AttributeError in
`get_input_replace_key`; an empty subkey is always a substring, so it is
kept), the subkey is empty and thus falsy — so its correction runs under the
TOP-LEVEL rules, matching the section name against the section names
(IndexError on no candidate, ValueError on an empty candidate, ValueError on
a non-"y" response to the truncated candidate) — or, for a nonempty subkey,
no close match over the section's keys survives the cutoff (ValueError) or
the response to the proposal is not exactly "y" (ValueError). -/
def subRaises (ref : List (String × Val)) (inp : String → String) (key : String)
    (orig : Val) (p : String × Val) : Bool :=
  match lookupVal ref key with
  | none => true
  | some (.prim s) => ! hasSeq p.1.toList s.toList
  | some (.dict refSec) =>
    if (refSec.map Prod.fst).contains p.1 then false
    else if p.1 = "" then
      match getCloseMatches key (ref.map Prod.fst) with
      | [] => true
      | rk :: _ =>
        decide (rk.toList.length = 0) ||
          ! (inp (mkMessage key orig (strTake1 rk)) == "y")
    else
      match getCloseMatches p.1 (refSec.map Prod.fst) with
      | [] => true
      | rk :: _ => ! (inp (mkMessage (key ++ "/" ++ p.1) orig rk) == "y")

/-- Does processing the top-level entry `e` raise?  A dict section raises
exactly when one of its subkeys does (in particular any nonempty dict section
whose name is absent from the reference); a non-dict entry raises exactly when
its key is absent and either no candidate survives (IndexError), the candidate
is the empty string (ValueError), or the response to the proposal — showing
the candidate truncated to its first character — is not exactly "y". -/
def entryRaises (ref : List (String × Val)) (inp : String → String)
    (e : String × Val) : Bool :=
  match e.2 with
  | .dict sub => sub.any (subRaises ref inp e.1 (.dict sub))
  | .prim pv =>
    if (ref.map Prod.fst).contains e.1 then false
    else
      match getCloseMatches e.1 (ref.map Prod.fst) with
      | [] => true
      | rk :: _ =>
        decide (rk.toList.length = 0) ||
          ! (inp (mkMessage e.1 (.prim pv) (strTake1 rk)) == "y")

/-- The subdict loop raises exactly when some subkey raises. -/
theorem checkSubEntries_isErr (ref : List (String × Val)) (inp : String → String)
    (key : String) (orig : Val) :
    ∀ (sub acc : List (String × Val)),
      isErr (checkSubEntries ref inp key orig sub acc) =
        sub.any (subRaises ref inp key orig) := by
  intro sub
  induction sub with
  | nil => intro acc; simp [checkSubEntries, isErr]
  | cons sksv rest ih =>
    intro acc
    obtain ⟨sk, sv⟩ := sksv
    cases hlk : lookupVal ref key with
    | none => simp [checkSubEntries, subRaises, hlk, isErr]
    | some val =>
      cases val with
      | prim sref =>
        by_cases hin : hasSeq sk.data sref.data = true
        · simp [checkSubEntries, subRaises, hlk, hin, ih]
        · cases hg : get_input_replace_key ref inp key orig (some sk) with
          | error e2 =>
            simp [checkSubEntries, subRaises, hlk, hin, hg, isErr]
          | ok sk' =>
            exfalso
            have hsk : ¬ sk = "" := by
              intro hemp
              subst hemp
              exact hin (hasSeq_nil_left sref.data)
            simp only [get_input_replace_key, if_neg hsk, hlk] at hg
            exact Except.noConfusion hg
      | dict refSec =>
        by_cases hin : sk ∈ List.map Prod.fst refSec
        · simp [checkSubEntries, subRaises, hlk, hin, ih]
        · by_cases hsk : sk = ""
          · subst hsk
            cases hm : getCloseMatches key (ref.map Prod.fst) with
            | nil =>
              simp [checkSubEntries, get_input_replace_key, get_input_replace_key_top,
                subRaises, hlk, hin, hm, isErr]
            | cons rk tl =>
              by_cases hlen : rk.length = 0
              · simp [checkSubEntries, get_input_replace_key, get_input_replace_key_top,
                  subRaises, hlk, hin, hm, hlen, isErr]
              · by_cases hy : inp (mkMessage key orig (strTake1 rk)) = "y"
                · simp [checkSubEntries, get_input_replace_key, get_input_replace_key_top,
                    subRaises, hlk, hin, hm, hlen, hy, ih]
                · simp [checkSubEntries, get_input_replace_key, get_input_replace_key_top,
                    subRaises, hlk, hin, hm, hlen, hy, isErr]
          · cases hm : getCloseMatches sk (refSec.map Prod.fst) with
            | nil =>
              simp [checkSubEntries, get_input_replace_key, subRaises, hlk, hin, hsk,
                hm, isErr]
            | cons rk tl =>
              by_cases hy : inp (mkMessage (key ++ "/" ++ sk) orig rk) = "y"
              · simp [checkSubEntries, get_input_replace_key, subRaises, hlk, hin, hsk,
                  hm, hy, ih]
              · simp [checkSubEntries, get_input_replace_key, subRaises, hlk, hin, hsk,
                  hm, hy, isErr]

/-- The top-level loop raises exactly when some entry raises. -/
theorem checkEntries_isErr (ref : List (String × Val)) (inp : String → String) :
    ∀ (cfg acc : List (String × Val)),
      isErr (checkEntries ref inp cfg acc) = cfg.any (entryRaises ref inp) := by
  intro cfg
  induction cfg with
  | nil => intro acc; simp [checkEntries, isErr]
  | cons keyitem rest ih =>
    intro acc
    obtain ⟨key, item⟩ := keyitem
    cases item with
    | dict sub =>
      cases hcs : checkSubEntries ref inp key (.dict sub) sub [] with
      | error e2 =>
        have h1 : sub.any (subRaises ref inp key (.dict sub)) = true := by
          rw [← checkSubEntries_isErr ref inp key (.dict sub) sub [], hcs]
          rfl
        simp [checkEntries, hcs, isErr, entryRaises, h1]
      | ok newSub =>
        have h1 : sub.any (subRaises ref inp key (.dict sub)) = false := by
          rw [← checkSubEntries_isErr ref inp key (.dict sub) sub [], hcs]
          rfl
        simp [checkEntries, hcs, entryRaises, h1, ih]
    | prim pv =>
      by_cases hc : key ∈ List.map Prod.fst ref
      · simp [checkEntries, hc, entryRaises, ih]
      · cases hm : getCloseMatches key (ref.map Prod.fst) with
        | nil =>
          simp [checkEntries, get_input_replace_key, get_input_replace_key_top, hc, hm,
            entryRaises, isErr]
        | cons rk tl =>
          by_cases hlen : rk.length = 0
          · simp [checkEntries, get_input_replace_key, get_input_replace_key_top, hc, hm,
              hlen, entryRaises, isErr]
          · by_cases hy : inp (mkMessage key (.prim pv) (strTake1 rk)) = "y"
            · simp [checkEntries, get_input_replace_key, get_input_replace_key_top, hc, hm,
                hlen, hy, entryRaises, ih]
            · simp [checkEntries, get_input_replace_key, get_input_replace_key_top, hc, hm,
                hlen, hy, entryRaises, isErr]

/-- An accepted top-level proposal was answered with exactly "y": the returned
key is the truncated candidate that the message showed. -/
theorem gikr_top_ok_resp {ref : List (String × Val)} {inp : String → String}
    {key : String} {item : Val} {c : String}
    (h : get_input_replace_key_top ref inp key item = .ok c) :
    inp (mkMessage key item c) = "y" := by
  simp only [get_input_replace_key_top] at h
  cases hm : getCloseMatches key (ref.map Prod.fst) with
  | nil =>
    simp only [hm] at h
    exact Except.noConfusion h
  | cons rk tl =>
    simp only [hm] at h
    by_cases hlen : rk.toList.length = 0
    · rw [if_pos hlen] at h
      exact Except.noConfusion h
    · rw [if_neg hlen] at h
      by_cases hy : inp (mkMessage key item (strTake1 rk)) = "y"
      · rw [if_pos hy] at h
        obtain rfl := Except.ok.inj h
        exact hy
      · rw [if_neg hy] at h
        exact Except.noConfusion h

/-- C9 (amended): a proposed correction is substituted only when the response
is exactly the string "y" — for a nonempty subkey the accepted candidate is
the one shown in the "key/subkey" message; for a top-level key, and likewise
for an EMPTY subkey (which line 64's falsy `if subkey:` routes to the
top-level branch, matching the section's own name against the section names),
the accepted candidate is the truncated one shown in the plain-key message.
And validation raises if and only if some entry raises per
`entryRaises`/`subRaises`: some proposal's response differs from "y", some key
has no usable match candidate (none above the cutoff, or an empty top-level
candidate), or — the case the original claim misses — a nonempty dict-valued
section's name is absent from the schema, which raises KeyError before any
proposal; an empty subkey, by contrast, can be corrected without raising. -/
theorem c9_confirmation_gate (ref : List (String × Val)) (inp : String → String) :
    (∀ key item sk c, sk ≠ "" →
      get_input_replace_key ref inp key item (some sk) = .ok c →
      inp (mkMessage (key ++ "/" ++ sk) item c) = "y") ∧
    (∀ key item c,
      get_input_replace_key ref inp key item (some "") = .ok c →
      inp (mkMessage key item c) = "y") ∧
    (∀ key item c,
      get_input_replace_key ref inp key item none = .ok c →
      inp (mkMessage key item c) = "y") ∧
    (∀ cfg, isErr (check_config ref inp cfg) = cfg.any (entryRaises ref inp)) := by
  refine ⟨?_, ?_, ?_, ?_⟩
  · intro key item sk c hsk h
    cases hlk : lookupVal ref key with
    | none => simp [get_input_replace_key, hsk, hlk] at h
    | some val =>
      cases val with
      | prim sref => simp [get_input_replace_key, hsk, hlk] at h
      | dict refSec =>
        simp only [get_input_replace_key, if_neg hsk, hlk] at h
        cases hm : getCloseMatches sk (refSec.map Prod.fst) with
        | nil =>
          simp only [hm] at h
          exact Except.noConfusion h
        | cons rk tl =>
          simp only [hm] at h
          by_cases hy : inp (mkMessage (key ++ "/" ++ sk) item rk) = "y"
          · rw [if_pos hy] at h
            obtain rfl := Except.ok.inj h
            exact hy
          · rw [if_neg hy] at h
            exact Except.noConfusion h
  · intro key item c h
    have h2 : get_input_replace_key_top ref inp key item = .ok c := by
      simpa [get_input_replace_key] using h
    exact gikr_top_ok_resp h2
  · intro key item c h
    have h2 : get_input_replace_key_top ref inp key item = .ok c := by
      simpa [get_input_replace_key] using h
    exact gikr_top_ok_resp h2
  · intro cfg
    exact checkEntries_isErr ref inp cfg []

/-- C9 counterexample to the claim's "if and only if": with an always-"y"
policy and a close candidate available ("emin" for "eminn"), validation still
raises — the KeyError for the unknown dict-valued section is thrown before any
proposal, so "raises iff some response differs from y or no candidate exists"
is false as stated. -/
theorem c9_claim_counterexample :
    check_config [("emin", Val.dict [("emtol", Val.prim "10")])] (fun _ => "y")
      [("eminn", Val.dict [("emtol", Val.prim "100")])] = .error (.keyError "eminn") ∧
    getCloseMatches "eminn" ["emin"] ≠ [] := ⟨rfl, by decide⟩

/-- C9 witness: the accepted subkey proposal "forcefield" was answered with
exactly "y" by the always-yes policy. -/
theorem c9_confirmation_gate_witness :
    (fun _ : String => "y") (mkMessage ("pdb2gmx" ++ "/" ++ "forcefeild")
      (Val.dict [("forcefeild", Val.prim "c36")]) "forcefield") = "y" :=
  (c9_confirmation_gate [("pdb2gmx", Val.dict [("forcefield", Val.prim "a")])]
      (fun _ => "y")).1
    "pdb2gmx" (Val.dict [("forcefeild", Val.prim "c36")]) "forcefeild" "forcefield"
    (by decide) rfl

/-- C5: from a mixed state (the registered path `p` exists but not every
resolved path does), `add_files` renames `p` to `p ++ "bak"`: if that backup
name is already occupied the call fails with the backup-collision
AssertionError instead of overwriting it, otherwise on success the backup name
exists afterwards, and no file content is ever lost by a successful call.  The
side condition that `p ++ "bak"` is not itself one of the registered paths
rules out registrations that deliberately re-register a backup name, where the
loop itself later renames the freshly made backup again. -/
theorem c5_backup_semantics (sf : SimFiles) (fs : Fs) (names : List String) (p : String)
    (hp : p ∈ resolvePaths sf names)
    (hex : osPathExists fs p = true)
    (hnb : (p ++ "bak") ∉ resolvePaths sf names)
    (hnall : (resolvePaths sf names).all (osPathExists fs) = false) :
    (osPathExists fs (p ++ "bak") = true →
      add_files sf fs names = .error .assertionError) ∧
    (∀ ov sf' fs', add_files sf fs names = .ok (ov, sf', fs') →
      osPathExists fs' (p ++ "bak") = true) ∧
    (∀ ov sf' fs' q c, add_files sf fs names = .ok (ov, sf', fs') → fs q = some c →
      ∃ q', fs' q' = some c) := by
  refine ⟨?_, ?_, ?_⟩
  · intro hbak
    have herr := addFilesLoop_collision (resolvePaths sf names)
      (fileEnding (names.getLast?.getD "")) sf.files fs p hp hex hbak hnb
    simp [add_files, hnall, herr]
  · intro ov sf' fs' hok
    rcases addFilesLoop_shape (resolvePaths sf names)
        (fileEnding (names.getLast?.getD "")) sf.files fs with herr | ⟨L, fs2, hl⟩
    · rw [show add_files sf fs names = .error .assertionError by
        simp [add_files, hnall, herr]] at hok
      cases hok
    · rw [show add_files sf fs names = .ok (some (resolvePaths sf names),
          SimFiles.mk sf.path sf.files_name sf.minor_path sf.major_files L, fs2) by
        simp [add_files, hnall, hl]] at hok
      cases hok
      exact addFilesLoop_backs_up (resolvePaths sf names)
        (fileEnding (names.getLast?.getD "")) sf.files fs p L fs' hp hex hnb hl
  · intro ov sf' fs' q c hok hq
    rcases addFilesLoop_shape (resolvePaths sf names)
        (fileEnding (names.getLast?.getD "")) sf.files fs with herr | ⟨L, fs2, hl⟩
    · rw [show add_files sf fs names = .error .assertionError by
        simp [add_files, hnall, herr]] at hok
      cases hok
    · rw [show add_files sf fs names = .ok (some (resolvePaths sf names),
          SimFiles.mk sf.path sf.files_name sf.minor_path sf.major_files L, fs2) by
        simp [add_files, hnall, hl]] at hok
      cases hok
      exact addFilesLoop_no_content_lost (resolvePaths sf names)
        (fileEnding (names.getLast?.getD "")) sf.files fs L fs' hl q c hq

/-- C5 witness: registering `["a.gro", "b.top"]` with `a.gro` present (content
"c1") and `b.top` absent succeeds and leaves `a.grobak` in existence. -/
theorem c5_backup_semantics_witness :
    osPathExists
      (osReplace (fun p => if p = "/m/simfiles/a.gro" then some "c1" else none)
        "/m/simfiles/a.gro" ("/m/simfiles/a.gro" ++ "bak"))
      ("/m/simfiles/a.gro" ++ "bak") = true :=
  (c5_backup_semantics (mkSimFiles "/m" [])
      (fun p => if p = "/m/simfiles/a.gro" then some "c1" else none)
      ["a.gro", "b.top"] "/m/simfiles/a.gro"
      (by decide) rfl (by decide) rfl).2.1
    (some ["/m/simfiles/a.gro", "/m/simfiles/b.top"])
    (SimFiles.mk "/m" "/m/files.toml" "/m/simfiles" [".xtc"]
      [("top", ["/m/simfiles/a.gro", "/m/simfiles/b.top"])])
    (osReplace (fun p => if p = "/m/simfiles/a.gro" then some "c1" else none)
      "/m/simfiles/a.gro" ("/m/simfiles/a.gro" ++ "bak"))
    rfl

/-- C10: registering an empty sequence of filenames always returns `none`
(`np.all([])` is true, so the all-paths-exist branch is taken) and leaves both
the ledger state and the filesystem untouched. -/
theorem c10_empty_registration (sf : SimFiles) (fs : Fs) :
    add_files sf fs [] = .ok (none, sf, fs) := rfl

/-- C7: validating the raw config `{"pdb2gmx": {"forcefeild": "charmm36"}}`
against a schema with section `pdb2gmx` and key `forcefield`, with a
confirmation policy that always answers "y", returns exactly
`{"pdb2gmx": {"forcefield": "charmm36"}}` (the key is corrected, the value is
kept). -/
theorem c7_example_scenario :
    check_config [("pdb2gmx", .dict [("forcefield", .prim "amber")])] (fun _ => "y")
      [("pdb2gmx", .dict [("forcefeild", .prim "charmm36")])] =
      .ok [("pdb2gmx", .dict [("forcefield", .prim "charmm36")])] := rfl

/-- C6: the persisted-record round trip is impossible because `SimFiles.save`
always raises — line 157 calls `toml.save`, which does not exist in the toml
package — after truncating files.toml; no save-then-load can reproduce any
mapping. -/
theorem c6_save_always_raises (sf : SimFiles) (fs : Fs) :
    (SimFiles.save sf fs).2 = .error .attributeError := rfl

/-- C4: for a dict-valued section whose name is not a key of the schema,
`check_config` raises `KeyError` from the lookup `self.ref_config[key]` on the
first subkey (line 95) — no closest-match ranking over the schema's section
names is computed and the confirmation function is never consulted, even
though a close candidate ("output" for "outputs") exists. -/
theorem c4_unknown_section_keyerror :
    check_config [("output", .dict [("nsteps", .prim "x")])] (fun _ => "y")
      [("outputs", .dict [("nsteps", .prim "1000")])] = .error (.keyError "outputs") ∧
    getCloseMatches "outputs"
      (([("output", Val.dict [("nsteps", .prim "x")])]).map Prod.fst) =
      ["output"] := ⟨rfl, by decide⟩

/-- C3: with an empty storage and run directory "/run", registering
`["a.xtc", "b.gro"]` resolves `a.xtc` into the MINOR zone (line 128 computes
the ending "xtc" without the dot, which never matches the major set
`[".xtc"]`), and appends BOTH paths to the category list "gro" — the ending of
the last name — because line 144 reuses the loop variable `file_ending` leaked
from the first loop; the claim's per-file category and major-zone placement
both fail here. -/
theorem c3_category_and_zone_assignment_bug :
    (mkSimFiles "/run" []).major_files = [".xtc"] ∧
    resolvePath (mkSimFiles "/run" []) "a.xtc" =
      pjoin (mkSimFiles "/run" []).minor_path "a.xtc" ∧
    add_files (mkSimFiles "/run" []) (fun _ => none) ["a.xtc", "b.gro"] =
      .ok (some ["/run/simfiles/a.xtc", "/run/simfiles/b.gro"],
        SimFiles.mk "/run" "/run/files.toml" "/run/simfiles" [".xtc"]
          [("gro", ["/run/simfiles/a.xtc", "/run/simfiles/b.gro"])],
        fun _ => none) := ⟨rfl, rfl, rfl⟩
